import Mathlib

/-! Shallow embedding of the BlueBubbles desktop client's sync core: the
JSON value model, the remote client (src/api/client.rs), the local cache
store (src/storage.rs) and the background-load orchestration of
src/ui/main_window.rs, together with theorems settling the spec claims. -/

/-- Conversation record, from src/api/models.rs. -/
structure Conversation where
  id : String
  name : String
deriving DecidableEq, Repr

/-- Persisted row of the chats table, from the schema in src/storage.rs. -/
structure CachedRecord where
  id : String
  name : String
  updated_at : Int
  raw_json : Option String
deriving DecidableEq, Repr

/-- JSON documents, modelling serde_json::Value. Numbers are restricted to
integers; no claim involves non-integer numbers. -/
inductive Json where
  | null
  | bool (b : Bool)
  | num (n : Int)
  | str (s : String)
  | arr (xs : List Json)
  | obj (fields : List (String × Json))

/-- First-match lookup among object fields (serde_json keys are unique). -/
def getField : List (String × Json) → String → Option Json
  | [], _ => none
  | (k, v) :: rest, key => if k == key then some v else getField rest key

/-- serde_json Value::get: field lookup on objects, none otherwise. -/
def Json.get : Json → String → Option Json
  | .obj fields, key => getField fields key
  | _, _ => none

/-- serde_json Value::as_str. -/
def Json.asStr : Json → Option String
  | .str s => some s
  | _ => none

/-- serde_json Value::as_array. -/
def Json.asArray : Json → Option (List Json)
  | .arr xs => some xs
  | _ => none

mutual
/-- Compact serialization, modelling serde_json::to_string. String escaping
is omitted: every string the claims touch is plain ASCII without quotes or
backslashes, where the two serializers agree. -/
def Json.render : Json → String
  | .null => "null"
  | .bool true => "true"
  | .bool false => "false"
  | .num n => toString n
  | .str s => "\"" ++ s ++ "\""
  | .arr xs => "[" ++ Json.renderArr xs ++ "]"
  | .obj fs => "\x7b" ++ Json.renderObj fs ++ "\x7d"

/-- Comma-separated rendering of array elements. -/
def Json.renderArr : List Json → String
  | [] => ""
  | [x] => Json.render x
  | x :: y :: rest => Json.render x ++ "," ++ Json.renderArr (y :: rest)

/-- Comma-separated rendering of object fields. -/
def Json.renderObj : List (String × Json) → String
  | [] => ""
  | [(k, v)] => "\"" ++ k ++ "\":" ++ Json.render v
  | (k, v) :: f :: rest => "\"" ++ k ++ "\":" ++ Json.render v ++ "," ++ Json.renderObj (f :: rest)
end

/-- Rust Option::or over optional values: the first argument wins when
present. -/
def orO {α : Type} (a b : Option α) : Option α :=
  match a with
  | some x => some x
  | none => b

/-- Parse result of a response body: either the JSON decode fails with a
message, or it yields a document. -/
inductive BodyResult where
  | parseFail (msg : String)
  | parsed (j : Json)

/-- Abstract outcome of one HTTP request issued by the client: the
connection fails with a transport error message, or a response arrives
bearing a status code and a body. -/
inductive HttpOutcome where
  | connectFail (msg : String)
  | response (status : Nat) (body : BodyResult)

/-- reqwest StatusCode::is_success: the 2xx range. -/
def isSuccess (st : Nat) : Bool := decide (200 ≤ st ∧ st < 300)

/-- Discriminator for Except, as the source's Result::is_ok. -/
def exceptIsOk {ε α : Type} : Except ε α → Bool
  | .ok _ => true
  | .error _ => false

/-- Conversation id extraction in ApiClient::conversations:
item.get("id") as a string, defaulting to the empty string. -/
def convId (item : Json) : String := ((item.get "id").bind Json.asStr).getD ""

/-- Conversation name extraction: ordered fallback over four field names on
the raw optional values, then as_str, defaulting to "Chat". -/
def convName (item : Json) : String :=
  ((orO (orO (orO (item.get "name") (item.get "display_name")) (item.get "title"))
      (item.get "displayName")).bind Json.asStr).getD "Chat"

/-- Response unwrapping in ApiClient::conversations: a bare array, else the
array under "chats", else under "data", else no items. -/
def unwrapItems (j : Json) : List Json :=
  match j.asArray with
  | some xs => xs
  | none =>
    match (j.get "chats").bind Json.asArray with
    | some xs => xs
    | none =>
      match (j.get "data").bind Json.asArray with
      | some xs => xs
      | none => []

/-- Projection of raw items to Conversations: items with an empty id are
dropped (src/api/client.rs lines 90-102). -/
def projectConvs : List Json → List Conversation
  | [] => []
  | item :: rest =>
    if convId item == "" then projectConvs rest
    else ⟨convId item, convName item⟩ :: projectConvs rest

/-- ApiClient::conversations as a function of the abstract outcome of its
single POST: transport errors and non-success statuses are errors, a parse
failure is an error, and any parsed document yields the projected list
paired with all raw items. -/
def conversations (outcome : HttpOutcome) : Except String (List Conversation × List Json) :=
  match outcome with
  | .connectFail m => .error m
  | .response st body =>
    if isSuccess st then
      match body with
      | .parseFail m => .error m
      | .parsed j => .ok (projectConvs (unwrapItems j), unwrapItems j)
    else .error ("HTTP " ++ toString st)

/-- Rust str::trim_end_matches applied to a slash. -/
def trimTrailingSlashes (s : String) : String :=
  String.mk ((s.toList.reverse.dropWhile (fun c => c == '/')).reverse)

/-- ApiClient::base_api: trim trailing slashes and append "/api" unless the
url already ends with it. -/
def base_api (base_url : String) : String :=
  let trimmed := trimTrailingSlashes base_url
  if ("/api".toList).isSuffixOf trimmed.toList then trimmed else trimmed ++ "/api"

/-- Token extraction in obtain_token: the "token" field as a string, else
the "accessToken" field as a string. -/
def tokenOf (j : Json) : Option String :=
  match (j.get "token").bind Json.asStr with
  | some t => some t
  | none => (j.get "accessToken").bind Json.asStr

/-- One obtain_token candidate attempt: a token from a success-status
response wins; otherwise the message the source records for this candidate
(transport error, "HTTP st", decode error, or the token-not-found text). -/
def tokenStep (o : HttpOutcome) : Except String String :=
  match o with
  | .connectFail m => .error m
  | .response st b =>
    if isSuccess st then
      match b with
      | .parseFail m => .error m
      | .parsed j =>
        match tokenOf j with
        | some t => .ok t
        | none => .error "Token not found in response"
    else .error ("HTTP " ++ toString st)

/-- One ping candidate attempt: any completed request yields its status
code, whatever it is; only transport failures are errors. -/
def pingStep (o : HttpOutcome) : Except String Nat :=
  match o with
  | .connectFail m => .error m
  | .response st _ => .ok st

/-- The candidate loop shared by ping and obtain_token: try each endpoint
in order, return the first per-candidate success, else the last recorded
error message, with a fallback for an empty candidate list. -/
def tryCandidates {α : Type} (step : HttpOutcome → Except String α)
    (env : String → HttpOutcome) :
    List String → Option String → String → Except String α
  | [], lastErr, dflt => .error (lastErr.getD dflt)
  | e :: es, lastErr, dflt =>
    match step (env e) with
    | .ok v => .ok v
    | .error m => tryCandidates step env es (some m) dflt

/-- The error message per candidate, as recorded into last_err. -/
def stepErrMsg {α : Type} (step : HttpOutcome → Except String α) (o : HttpOutcome) : String :=
  match step o with
  | .error m => m
  | .ok _ => ""

/-- The last_err value left after stepping through every candidate. -/
def errChain {α : Type} (step : HttpOutcome → Except String α) (env : String → HttpOutcome) :
    List String → Option String → String → String
  | [], lastErr, dflt => lastErr.getD dflt
  | e :: es, _, dflt => errChain step env es (some (stepErrMsg step (env e))) dflt

/-- The ordered liveness candidates of ApiClient::ping: versioned ping
path, unversioned ping path, bare base url. -/
def pingCandidates (base_url : String) : List String :=
  [base_api base_url ++ "/v1/ping", base_api base_url ++ "/ping", trimTrailingSlashes base_url]

/-- The ordered login candidates of ApiClient::obtain_token. -/
def loginCandidates (base_url : String) : List String :=
  [base_api base_url ++ "/v1/login", base_api base_url ++ "/v1/auth",
   base_api base_url ++ "/login", base_api base_url ++ "/auth"]

/-- ApiClient::ping over an abstract network environment mapping each
endpoint to its outcome; token and password only shape request headers. -/
def ping (env : String → HttpOutcome) (base_url : String)
    (token password : Option String) : Except String Nat :=
  tryCandidates pingStep env (pingCandidates base_url) none "Failed to reach any endpoint"

/-- ApiClient::obtain_token over an abstract network environment. -/
def obtain_token (env : String → HttpOutcome) (base_url password : String) :
    Except String String :=
  tryCandidates tokenStep env (loginCandidates base_url) none "Failed to obtain token"

/-- Row written for the idx-th conversation of an upsert batch: raw_json is
the serialized idx-th raw document when raws are supplied (src/storage.rs
lines 51-54). -/
def writeRecord (c : Conversation) (now : Int) (raws : Option (List Json)) (idx : Nat) : CachedRecord :=
  { id := c.id, name := c.name, updated_at := now,
    raw_json := (raws.bind (fun r => r.get? idx)).map Json.render }

/-- INSERT .. ON CONFLICT(id) DO UPDATE on the chats table: the table is
keyed by id, so at most one row matches; its name, updated_at and raw_json
are overwritten in place, otherwise a new row is added. -/
def upsertOne : List CachedRecord → CachedRecord → List CachedRecord
  | [], r => [r]
  | x :: t, r => if x.id == r.id then r :: t else x :: upsertOne t r

/-- The write loop of storage::upsert_chats, carrying the running index. -/
def upsertGo (now : Int) (raws : Option (List Json)) :
    List CachedRecord → List Conversation → Nat → List CachedRecord
  | s, [], _ => s
  | s, c :: cs, idx => upsertGo now raws (upsertOne s (writeRecord c now raws idx)) cs (idx + 1)

/-- storage::upsert_chats: one timestamp now is sampled before the loop and
used for every row; each conversation is written in order inside one
transaction. -/
def upsert_chats (s : List CachedRecord) (chats : List Conversation)
    (raws : Option (List Json)) (now : Int) : List CachedRecord :=
  upsertGo now raws s chats 0

/-- N-fold repetition of the same upsert_chats call. -/
def upsertN (s : List CachedRecord) (chats : List Conversation)
    (raws : Option (List Json)) (now : Int) : Nat → List CachedRecord
  | 0 => s
  | n + 1 => upsert_chats (upsertN s chats raws now n) chats raws now

/-- Point lookup of the row with a given id (SELECT .. WHERE id = ?). -/
def findRec (s : List CachedRecord) (i : String) : Option CachedRecord :=
  s.find? (fun r => r.id == i)

/-- The display order of get_chats: updated_at descending, then name
ascending on ties. -/
def chatOrder (a b : CachedRecord) : Prop :=
  b.updated_at < a.updated_at ∨ (a.updated_at = b.updated_at ∧ a.name ≤ b.name)

instance : DecidableRel chatOrder := fun _ _ =>
  inferInstanceAs (Decidable (_ ∨ _))

/-- The usize to i64 cast applied to the LIMIT argument. -/
def i64ofUsize (n : Nat) : Int :=
  if n % 2 ^ 64 < 2 ^ 63 then ((n % 2 ^ 64 : Nat) : Int)
  else ((n % 2 ^ 64 : Nat) : Int) - 2 ^ 64

/-- storage::get_chats before the final projection: ORDER BY updated_at
DESC, name ASC (modelled as a stable sort by chatOrder) with LIMIT
unwrap_or(500) cast to i64; SQLite treats a negative LIMIT as no limit. -/
def get_chatsRecords (s : List CachedRecord) (limit : Option Nat) : List CachedRecord :=
  let lim := i64ofUsize (limit.getD 500)
  let sorted := List.insertionSort chatOrder s
  if lim < 0 then sorted else sorted.take lim.toNat

/-- storage::get_chats: the ordered, truncated rows projected to id and
name. -/
def get_chats (s : List CachedRecord) (limit : Option Nat) : List Conversation :=
  (get_chatsRecords s limit).map (fun r => ⟨r.id, r.name⟩)

/-- The message published by the background load of show_main_window
(src/ui/main_window.rs lines 53-68): on fetch success the fetched items
are published; the upsert result is bound to an underscore and dropped. -/
def loadFetchMessage (fetchRes : Except String (List Conversation × List Json))
    (upsertRes : Except String Unit) : Except String (List Conversation) :=
  match fetchRes with
  | .ok (items, _raw) =>
    let _ := upsertRes
    .ok items
  | .error e => .error e

/-- The cache state after the background load: the fetched batch is
upserted with its raw items on success, untouched on failure. -/
def loadCacheAfter (s : List CachedRecord)
    (fetchRes : Except String (List Conversation × List Json)) (now : Int) : List CachedRecord :=
  match fetchRes with
  | .ok (items, raw) => upsert_chats s items (some raw) now
  | .error _ => s

/-- Index and value of the last batch entry bearing a given id, indices
offset by idx; under last-write-wins this is the write that survives. -/
def lastWriteIdx : List Conversation → String → Nat → Option (Conversation × Nat)
  | [], _, _ => none
  | c :: cs, i, idx =>
    orO (lastWriteIdx cs i (idx + 1)) (if c.id == i then some (c, idx) else none)

/-- The id column after an upsert batch: ids already seen keep their row,
fresh ids are appended in first-occurrence order. -/
def addNewIds (seen : List String) : List String → List String
  | [] => seen
  | i :: rest => addNewIds (if i ∈ seen then seen else seen ++ [i]) rest

/-- The token a response body offers, if any: none for unparseable bodies
and for parsed bodies without a recognizable token field. -/
def bodyToken : BodyResult → Option String
  | .parseFail _ => none
  | .parsed j => tokenOf j

theorem tryCandidates_eq {α : Type} (step : HttpOutcome → Except String α)
    (env : String → HttpOutcome) (cands : List String) (lastErr : Option String) (dflt : String) :
    tryCandidates step env cands lastErr dflt =
      match cands.dropWhile (fun e => !(exceptIsOk (step (env e)))) with
      | [] => Except.error (errChain step env cands lastErr dflt)
      | e :: _ => step (env e) := by
  induction cands generalizing lastErr with
  | nil => simp [tryCandidates, errChain, List.dropWhile]
  | cons e es ih =>
    cases h : step (env e) with
    | ok v => simp [tryCandidates, h, List.dropWhile, exceptIsOk]
    | error m =>
      simp only [tryCandidates, h, List.dropWhile, exceptIsOk, Bool.not_false, errChain,
        stepErrMsg, ih]

theorem tryCandidates_error_iff {α : Type} (step : HttpOutcome → Except String α)
    (env : String → HttpOutcome) (cands : List String) (lastErr : Option String) (dflt : String) :
    (∃ m, tryCandidates step env cands lastErr dflt = Except.error m) ↔
      ∀ e ∈ cands, exceptIsOk (step (env e)) = false := by
  induction cands generalizing lastErr with
  | nil => simp [tryCandidates]
  | cons e es ih =>
    cases h : step (env e) with
    | ok v => simp [tryCandidates, h, exceptIsOk]
    | error m => simp [tryCandidates, h, exceptIsOk, ih]

/-- Claim C7: obtain_token tries its four login candidates in order and
returns the token of the first candidate with a success status and a
recognizable token field; it fails, carrying the last observed error (or
the token-not-found message), exactly when every candidate fails to
connect, has a non-success status, or succeeds without a recognizable
token. -/
theorem obtain_token_characterization (env : String → HttpOutcome) (base pw : String) :
    (loginCandidates base).length = 4 ∧
    (obtain_token env base pw =
      match (loginCandidates base).dropWhile (fun e => !(exceptIsOk (tokenStep (env e)))) with
      | [] => Except.error (stepErrMsg tokenStep (env (base_api base ++ "/auth")))
      | e :: _ => tokenStep (env e)) ∧
    ((∃ m, obtain_token env base pw = Except.error m) ↔
      ∀ e ∈ loginCandidates base, exceptIsOk (tokenStep (env e)) = false) ∧
    (∀ o, exceptIsOk (tokenStep o) = false ↔
      (∃ m, o = HttpOutcome.connectFail m) ∨
      (∃ st b, o = HttpOutcome.response st b ∧ isSuccess st = false) ∨
      (∃ st b, o = HttpOutcome.response st b ∧ isSuccess st = true ∧ bodyToken b = none)) := by
  refine ⟨rfl, ?_, ?_, ?_⟩
  · rw [obtain_token, tryCandidates_eq]
    cases hdw : (loginCandidates base).dropWhile (fun e => !(exceptIsOk (tokenStep (env e)))) with
    | nil => simp [loginCandidates, errChain]
    | cons e rest => rfl
  · exact tryCandidates_error_iff tokenStep env (loginCandidates base) none "Failed to obtain token"
  · intro o
    cases o with
    | connectFail m => simp [tokenStep, exceptIsOk]
    | response st b =>
      cases hs : isSuccess st with
      | false =>
        simp [tokenStep, hs, exceptIsOk]
      | true =>
        cases b with
        | parseFail m =>
          constructor
          · intro _
            exact Or.inr (Or.inr ⟨st, BodyResult.parseFail m, rfl, hs, rfl⟩)
          · intro _
            simp [tokenStep, hs, exceptIsOk]
        | parsed j =>
          cases ht : tokenOf j with
          | none =>
            constructor
            · intro _
              exact Or.inr (Or.inr ⟨st, BodyResult.parsed j, rfl, hs, by simp [bodyToken, ht]⟩)
            · intro _
              simp [tokenStep, hs, ht, exceptIsOk]
          | some t => simp [tokenStep, hs, ht, exceptIsOk, bodyToken]

/-- Claim C8: ping attempts the versioned ping path, the unversioned ping
path, then the bare base url, strictly in order; it returns the status of
the first candidate whose request completes, whatever the status, and
fails carrying the last transport error exactly when every candidate fails
to complete. -/
theorem ping_characterization (env : String → HttpOutcome) (base : String)
    (tok pw : Option String) :
    pingCandidates base =
      [base_api base ++ "/v1/ping", base_api base ++ "/ping", trimTrailingSlashes base] ∧
    (ping env base tok pw =
      match (pingCandidates base).dropWhile (fun e => !(exceptIsOk (pingStep (env e)))) with
      | [] => Except.error (stepErrMsg pingStep (env (trimTrailingSlashes base)))
      | e :: _ => pingStep (env e)) ∧
    ((∃ m, ping env base tok pw = Except.error m) ↔
      ∀ e ∈ pingCandidates base, exceptIsOk (pingStep (env e)) = false) ∧
    (∀ o, exceptIsOk (pingStep o) = false ↔ ∃ m, o = HttpOutcome.connectFail m) ∧
    (∀ st b, pingStep (HttpOutcome.response st b) = Except.ok st) := by
  refine ⟨rfl, ?_, ?_, ?_, fun st b => rfl⟩
  · rw [ping, tryCandidates_eq]
    cases hdw : (pingCandidates base).dropWhile (fun e => !(exceptIsOk (pingStep (env e)))) with
    | nil => simp [pingCandidates, errChain]
    | cons e rest => rfl
  · exact tryCandidates_error_iff pingStep env (pingCandidates base) none
      "Failed to reach any endpoint"
  · intro o
    cases o with
    | connectFail m => simp [pingStep, exceptIsOk]
    | response st b => simp [pingStep, exceptIsOk]

theorem findRec_upsertOne (s : List CachedRecord) (r : CachedRecord) (i : String) :
    findRec (upsertOne s r) i = if r.id == i then some r else findRec s i := by
  induction s with
  | nil =>
    by_cases h : r.id = i
    · have hb : (r.id == i) = true := by simp [h]
      simp [upsertOne, findRec, List.find?, hb]
    · have hb : (r.id == i) = false := by simp [h]
      simp [upsertOne, findRec, List.find?, hb]
  | cons x t ih =>
    by_cases hx : x.id = r.id
    · have hxb : (x.id == r.id) = true := by simp [hx]
      by_cases hi : r.id = i
      · have hib : (r.id == i) = true := by simp [hi]
        simp [upsertOne, findRec, List.find?, hxb, hib]
      · have hib : (r.id == i) = false := by simp [hi]
        have hxib : (x.id == i) = false := by
          simp only [beq_eq_false_iff_ne, ne_eq]
          exact fun hh => hi (hx.symm.trans hh)
        simp [upsertOne, findRec, List.find?, hxb, hib, hxib]
    · have hxb : (x.id == r.id) = false := by simp [hx]
      by_cases hxi : x.id = i
      · have hxib : (x.id == i) = true := by simp [hxi]
        have hri : ¬ r.id = i := fun h => hx (hxi.trans h.symm)
        have hib : (r.id == i) = false := by simp [hri]
        simp [upsertOne, findRec, List.find?, hxb, hxib, hib]
      · have hxib : (x.id == i) = false := by simp [hxi]
        simp only [findRec] at ih
        simp [upsertOne, findRec, List.find?, hxb, hxib, ih]

theorem upsertOne_ids (s : List CachedRecord) (r : CachedRecord) :
    (upsertOne s r).map (fun x => x.id) =
      if r.id ∈ s.map (fun x => x.id) then s.map (fun x => x.id)
      else s.map (fun x => x.id) ++ [r.id] := by
  induction s with
  | nil => simp [upsertOne]
  | cons x t ih =>
    by_cases hx : x.id = r.id
    · simp [upsertOne, hx]
    · by_cases hm : r.id ∈ t.map (fun x => x.id) <;>
        simp [upsertOne, hx, Ne.symm hx, hm, ih]

theorem upsertGo_spec (now : Int) (raws : Option (List Json)) (chats : List Conversation) :
    ∀ (s : List CachedRecord) (idx : Nat) (i : String),
    findRec (upsertGo now raws s chats idx) i =
      match lastWriteIdx chats i idx with
      | some (c, j) => some (writeRecord c now raws j)
      | none => findRec s i := by
  induction chats with
  | nil => intro s idx i; simp [upsertGo, lastWriteIdx]
  | cons c cs ih =>
    intro s idx i
    simp only [upsertGo, lastWriteIdx]
    rw [ih]
    cases hlw : lastWriteIdx cs i (idx + 1) with
    | some p => simp [orO]
    | none =>
      simp only [orO]
      by_cases hci : c.id = i
      · simp [findRec_upsertOne, writeRecord, hci]
      · simp [findRec_upsertOne, writeRecord, hci]

theorem upsertGo_ids (now : Int) (raws : Option (List Json)) (chats : List Conversation) :
    ∀ (s : List CachedRecord) (idx : Nat),
    (upsertGo now raws s chats idx).map (fun x => x.id) =
      addNewIds (s.map (fun x => x.id)) (chats.map (fun c => c.id)) := by
  induction chats with
  | nil => intro s idx; simp [upsertGo, addNewIds]
  | cons c cs ih =>
    intro s idx
    simp only [upsertGo, List.map_cons, addNewIds]
    rw [ih, upsertOne_ids]
    simp [writeRecord]

theorem addNewIds_nodup (l : List String) :
    ∀ (seen : List String), seen.Nodup → (addNewIds seen l).Nodup := by
  induction l with
  | nil => intro seen h; simpa [addNewIds] using h
  | cons i rest ih =>
    intro seen h
    by_cases hm : i ∈ seen
    · simpa [addNewIds, hm] using ih seen h
    · have hni : (seen ++ [i]).Nodup := by
        rw [List.nodup_append_comm]
        simpa [List.nodup_cons] using ⟨hm, h⟩
      simpa [addNewIds, hm] using ih _ hni

theorem mem_addNewIds_of_mem_seen (l : List String) :
    ∀ (seen : List String) (x : String), x ∈ seen → x ∈ addNewIds seen l := by
  induction l with
  | nil => intro seen x h; simpa [addNewIds] using h
  | cons i rest ih =>
    intro seen x h
    by_cases hm : i ∈ seen
    · simpa [addNewIds, hm] using ih seen x h
    · simpa [addNewIds, hm] using ih _ x (List.mem_append_left _ h)

theorem mem_addNewIds_of_mem (l : List String) :
    ∀ (seen : List String) (x : String), x ∈ l → x ∈ addNewIds seen l := by
  induction l with
  | nil => intro seen x h; cases h
  | cons i rest ih =>
    intro seen x hx
    rcases List.mem_cons.mp hx with hx | hx
    · subst hx
      by_cases hm : x ∈ seen
      · simpa [addNewIds, hm] using mem_addNewIds_of_mem_seen rest seen x hm
      · have hx2 : x ∈ seen ++ [x] := List.mem_append_right _ (List.mem_singleton_self x)
        simpa [addNewIds, hm] using mem_addNewIds_of_mem_seen rest (seen ++ [x]) x hx2
    · by_cases hm : i ∈ seen <;> simpa [addNewIds, hm] using ih _ x hx

theorem addNewIds_eq_of_subset (l : List String) :
    ∀ (seen : List String), (∀ x ∈ l, x ∈ seen) → addNewIds seen l = seen := by
  induction l with
  | nil => intro seen _; rfl
  | cons i rest ih =>
    intro seen h
    have hi : i ∈ seen := h i (List.mem_cons_self i rest)
    simpa [addNewIds, hi] using ih seen (fun x hx => h x (List.mem_cons_of_mem i hx))

theorem findRec_eq_none_of_not_mem (s : List CachedRecord) (i : String)
    (h : i ∉ s.map (fun r => r.id)) : findRec s i = none := by
  rw [findRec, List.find?_eq_none]
  intro x hx he
  exact h (List.mem_map.mpr ⟨x, hx, by simpa using he⟩)

theorem findRec_of_mem_nodup (s : List CachedRecord)
    (hnd : (s.map (fun r => r.id)).Nodup) (x : CachedRecord) (hx : x ∈ s) :
    findRec s x.id = some x := by
  induction s with
  | nil => cases hx
  | cons a t ih =>
    simp only [List.map_cons, List.nodup_cons] at hnd
    rcases List.mem_cons.mp hx with hx' | hx'
    · subst hx'; simp [findRec, List.find?]
    · have hxm : x.id ∈ t.map (fun r => r.id) := List.mem_map.mpr ⟨x, hx', rfl⟩
      have hax : ¬ a.id = x.id := fun he => hnd.1 (by rw [he]; exact hxm)
      have hab : (a.id == x.id) = false := by simp [hax]
      have ih' := ih hnd.2 hx'
      simp only [findRec, List.find?] at ih' ⊢
      simp [hab, ih']

theorem state_ext (s₁ : List CachedRecord) :
    ∀ (s₂ : List CachedRecord),
    s₁.map (fun r => r.id) = s₂.map (fun r => r.id) →
    (s₁.map (fun r => r.id)).Nodup →
    (∀ i, findRec s₁ i = findRec s₂ i) → s₁ = s₂ := by
  induction s₁ with
  | nil =>
    intro s₂ hm _ _
    cases s₂ with
    | nil => rfl
    | cons b t => simp at hm
  | cons a t₁ ih =>
    intro s₂ hm hnd hf
    cases s₂ with
    | nil => simp at hm
    | cons b t₂ =>
      simp only [List.map_cons, List.cons.injEq] at hm
      obtain ⟨hid, hmt⟩ := hm
      simp only [List.map_cons, List.nodup_cons] at hnd
      have hab : a = b := by
        have h1 : findRec (a :: t₁) a.id = some a := by simp [findRec, List.find?]
        have h2 : findRec (b :: t₂) a.id = some b := by
          have : (b.id == a.id) = true := by simp [hid.symm]
          simp [findRec, List.find?, this]
        have hsome : some a = some b := (h1.symm.trans (hf a.id)).trans h2
        exact Option.some.inj hsome
      subst hab
      have htails : t₁ = t₂ := by
        apply ih t₂ hmt hnd.2
        intro i
        by_cases hi : i = a.id
        · subst hi
          have hn1 : findRec t₁ a.id = none :=
            findRec_eq_none_of_not_mem t₁ a.id hnd.1
          have hn2 : findRec t₂ a.id = none :=
            findRec_eq_none_of_not_mem t₂ a.id (by rw [← hmt]; exact hnd.1)
          rw [hn1, hn2]
        · have hb : (a.id == i) = false := by simp [Ne.symm hi]
          have := hf i
          simp only [findRec, List.find?, hb] at this
          simpa [findRec] using this
      rw [htails]

theorem upsert_ids_nodup (s : List CachedRecord) (chats : List Conversation)
    (raws : Option (List Json)) (now : Int)
    (hnd : (s.map (fun r => r.id)).Nodup) :
    ((upsert_chats s chats raws now).map (fun r => r.id)).Nodup := by
  rw [upsert_chats, upsertGo_ids]
  exact addNewIds_nodup _ _ hnd

theorem upsert_chats_findRec (s : List CachedRecord) (chats : List Conversation)
    (raws : Option (List Json)) (now : Int) (i : String) :
    findRec (upsert_chats s chats raws now) i =
      match lastWriteIdx chats i 0 with
      | some (c, j) => some (writeRecord c now raws j)
      | none => findRec s i :=
  upsertGo_spec now raws chats s 0 i

theorem upsert_idem (s : List CachedRecord) (chats : List Conversation)
    (raws : Option (List Json)) (now : Int)
    (hnd : (s.map (fun r => r.id)).Nodup) :
    upsert_chats (upsert_chats s chats raws now) chats raws now =
      upsert_chats s chats raws now := by
  apply state_ext
  · simp only [upsert_chats, upsertGo_ids]
    apply addNewIds_eq_of_subset
    intro x hx
    exact mem_addNewIds_of_mem _ _ x hx
  · exact upsert_ids_nodup _ chats raws now (upsert_ids_nodup s chats raws now hnd)
  · intro i
    rw [upsert_chats_findRec]
    cases hlw : lastWriteIdx chats i 0 with
    | none => rfl
    | some p =>
      rw [upsert_chats_findRec, hlw]

theorem upsertN_eq_one (s : List CachedRecord) (chats : List Conversation)
    (raws : Option (List Json)) (now : Int)
    (hnd : (s.map (fun r => r.id)).Nodup) :
    ∀ n, upsertN s chats raws now (n + 1) = upsertN s chats raws now 1 := by
  intro n
  induction n with
  | zero => rfl
  | succ k ihk =>
    show upsert_chats (upsertN s chats raws now (k + 1)) chats raws now = _
    rw [ihk]
    exact upsert_idem s chats raws now hnd

theorem lastWriteIdx_eq_none (chats : List Conversation) (i : String) :
    ∀ idx, i ∉ chats.map (fun c => c.id) → lastWriteIdx chats i idx = none := by
  induction chats with
  | nil => intro idx _; rfl
  | cons c cs ih =>
    intro idx h
    simp only [List.map_cons, List.mem_cons] at h
    push_neg at h
    have hb : (c.id == i) = false := by simp [Ne.symm h.1]
    simp [lastWriteIdx, ih (idx + 1) h.2, hb, orO]

theorem exists_lastWriteIdx_of_mem (chats : List Conversation) (c : Conversation)
    (hc : c ∈ chats) : ∀ idx, ∃ c2 j, lastWriteIdx chats c.id idx = some (c2, j) := by
  induction chats with
  | nil => cases hc
  | cons a cs ih =>
    intro idx
    cases hlw : lastWriteIdx cs c.id (idx + 1) with
    | some p => exact ⟨p.1, p.2, by simp [lastWriteIdx, hlw, orO]⟩
    | none =>
      rcases List.mem_cons.mp hc with hc' | hc'
      · subst hc'
        exact ⟨c, idx, by simp [lastWriteIdx, hlw, orO]⟩
      · obtain ⟨c2, j, hj⟩ := ih hc' (idx + 1)
        rw [hj] at hlw
        cases hlw

instance : IsTotal CachedRecord chatOrder := ⟨by
  intro a b
  rcases lt_trichotomy a.updated_at b.updated_at with h | h | h
  · exact Or.inr (Or.inl h)
  · rcases le_total a.name b.name with hn | hn
    · exact Or.inl (Or.inr ⟨h, hn⟩)
    · exact Or.inr (Or.inr ⟨h.symm, hn⟩)
  · exact Or.inl (Or.inl h)⟩

instance : IsTrans CachedRecord chatOrder := ⟨by
  intro a b c hab hbc
  rcases hab with h1 | ⟨e1, n1⟩
  · rcases hbc with h2 | ⟨e2, n2⟩
    · exact Or.inl (lt_trans h2 h1)
    · exact Or.inl (e2 ▸ h1)
  · rcases hbc with h2 | ⟨e2, n2⟩
    · exact Or.inl (by rw [e1]; exact h2)
    · exact Or.inr ⟨e1.trans e2, le_trans n1 n2⟩⟩

theorem get_chatsRecords_sublist_sort (s : List CachedRecord) (lopt : Option Nat) :
    List.Sublist (get_chatsRecords s lopt) (List.insertionSort chatOrder s) := by
  simp only [get_chatsRecords]
  split
  · exact List.Sublist.refl _
  · exact List.take_sublist _ _

theorem get_chatsRecords_pairwise (s : List CachedRecord) (lopt : Option Nat) :
    List.Pairwise chatOrder (get_chatsRecords s lopt) :=
  List.Pairwise.sublist (get_chatsRecords_sublist_sort s lopt)
    (List.sorted_insertionSort chatOrder s)

theorem mem_of_mem_get_chatsRecords (s : List CachedRecord) (lopt : Option Nat)
    (x : CachedRecord) (hx : x ∈ get_chatsRecords s lopt) : x ∈ s :=
  (List.perm_insertionSort chatOrder s).subset
    ((get_chatsRecords_sublist_sort s lopt).subset hx)

theorem projectConvs_of_all_ids (items : List Json)
    (hall : ∀ j ∈ items, ¬ convId j = "") :
    projectConvs items = items.map (fun j => ⟨convId j, convName j⟩) := by
  induction items with
  | nil => rfl
  | cons item rest ih =>
    have h1 : ¬ convId item = "" := hall item (List.mem_cons_self _ _)
    have hb : (convId item == "") = false := by simp [h1]
    simp [projectConvs, hb, ih (fun j hj => hall j (List.mem_cons_of_mem _ hj))]

theorem lastWriteIdx_map_get (items : List Json) :
    ∀ (idx k : Nat) (hk : k < items.length),
    (items.map (fun j => convId j)).Nodup →
    lastWriteIdx (items.map (fun j => ⟨convId j, convName j⟩))
        (convId (items.get ⟨k, hk⟩)) idx =
      some (⟨convId (items.get ⟨k, hk⟩), convName (items.get ⟨k, hk⟩)⟩, idx + k) := by
  induction items with
  | nil => intro idx k hk; cases hk
  | cons item rest ih =>
    intro idx k hk hnd
    simp only [List.map_cons, List.nodup_cons] at hnd
    cases k with
    | zero =>
      have hnm : convId item ∉ (rest.map (fun j => (⟨convId j, convName j⟩ : Conversation))).map
          (fun c => c.id) := by
        simpa [List.map_map, Function.comp] using hnd.1
      have hnone := lastWriteIdx_eq_none
        (rest.map (fun j => (⟨convId j, convName j⟩ : Conversation)))
        (convId item) (idx + 1) hnm
      simp [lastWriteIdx, hnone, orO, List.get]
    | succ k' =>
      have hk' : k' < rest.length := Nat.lt_of_succ_lt_succ hk
      have harith : idx + 1 + k' = idx + (k' + 1) := by omega
      have hrec := ih (idx + 1) k' hk' hnd.2
      rw [harith] at hrec
      simp only [lastWriteIdx, List.map_cons, List.get]
      rw [hrec]
      rfl

/-- Claim C1: with a manually-created conversation already cached, the
background load's success path upserts the fetched batch but then
publishes only that batch, while listCached(200) on the updated cache
still holds the manual entry: the published view is not the reconciled
cache contents. -/
theorem load_publishes_batch_not_cache :
    loadFetchMessage (Except.ok ([⟨"x", "X"⟩], [Json.obj []])) (Except.ok ()) =
      Except.ok [⟨"x", "X"⟩] ∧
    get_chats (loadCacheAfter [⟨"m", "Manual", 5, none⟩]
        (Except.ok ([⟨"x", "X"⟩], [Json.obj []])) 10) (some 200) =
      [⟨"x", "X"⟩, ⟨"m", "Manual"⟩] ∧
    ([⟨"x", "X"⟩] : List Conversation) ≠ [⟨"x", "X"⟩, ⟨"m", "Manual"⟩] :=
  ⟨rfl, by decide, by decide⟩

/-- Claim C3: when the fetch succeeds and the cache write fails, the load
path still publishes the fetched items, but the storage error is dropped
by the underscore binding: the single delivered message is the ok-batch
for every storage outcome, so no separate storage error reaches the
consumer. -/
theorem load_swallows_storage_error :
    (∀ e : String,
      loadFetchMessage (Except.ok ([⟨"1", "A"⟩], [Json.obj [("id", Json.str "1")]]))
        (Except.error e) = Except.ok [⟨"1", "A"⟩]) ∧
    loadFetchMessage (Except.ok ([⟨"1", "A"⟩], [Json.obj [("id", Json.str "1")]]))
        (Except.error "no data dir") ≠ Except.error "no data dir" :=
  ⟨fun _ => rfl, fun h => Except.noConfusion h⟩

/-- Claim C2, counterexample: with a first batch item lacking an id, the
projected conversation "1" arises from the second raw item, yet upsert
stores the serialized first raw item as its raw_payload: positional
pairing after filtering mismatches the document the conversation was
projected from. -/
theorem upsert_raw_mispaired :
    conversations (HttpOutcome.response 200 (BodyResult.parsed
        (Json.arr [Json.obj [("name", Json.str "NoId")],
                   Json.obj [("id", Json.str "1"), ("name", Json.str "A")]]))) =
      Except.ok ([⟨"1", "A"⟩],
        [Json.obj [("name", Json.str "NoId")],
         Json.obj [("id", Json.str "1"), ("name", Json.str "A")]]) ∧
    findRec (upsert_chats [] [⟨"1", "A"⟩]
        (some [Json.obj [("name", Json.str "NoId")],
               Json.obj [("id", Json.str "1"), ("name", Json.str "A")]]) 7) "1" =
      some ⟨"1", "A", 7, some (Json.render (Json.obj [("name", Json.str "NoId")]))⟩ ∧
    Json.render (Json.obj [("name", Json.str "NoId")]) ≠
      Json.render (Json.obj [("id", Json.str "1"), ("name", Json.str "A")]) :=
  ⟨rfl, by decide, by decide⟩

/-- Claim C2 amended: raw documents are paired with projected conversations
by position against the unfiltered raw batch; when no item is dropped
(every raw item has a non-empty id) and the extracted ids are distinct,
the stored raw_payload of each conversation is exactly the serialized
document it was projected from. -/
theorem upsert_raw_paired_when_no_drop (s : List CachedRecord) (items : List Json)
    (now : Int) (k : Nat)
    (hall : ∀ j ∈ items, ¬ convId j = "")
    (hnd : (items.map (fun j => convId j)).Nodup)
    (hk : k < items.length) :
    findRec (upsert_chats s (projectConvs items) (some items) now)
        (convId (items.get ⟨k, hk⟩)) =
      some ⟨convId (items.get ⟨k, hk⟩), convName (items.get ⟨k, hk⟩), now,
        some (Json.render (items.get ⟨k, hk⟩))⟩ := by
  rw [projectConvs_of_all_ids items hall, upsert_chats_findRec]
  rw [lastWriteIdx_map_get items 0 k hk hnd]
  simp [writeRecord, List.getElem?_eq_getElem hk, List.get_eq_getElem]

/-- Witness for the amended claim C2 at a singleton batch. -/
theorem upsert_raw_paired_when_no_drop_witness :
    (∀ j ∈ [Json.obj [("id", Json.str "1")]], ¬ convId j = "") ∧
    ([Json.obj [("id", Json.str "1")]].map (fun j => convId j)).Nodup ∧
    findRec (upsert_chats [] (projectConvs [Json.obj [("id", Json.str "1")]])
        (some [Json.obj [("id", Json.str "1")]]) 3) "1" =
      some ⟨"1", "Chat", 3, some (Json.render (Json.obj [("id", Json.str "1")]))⟩ := by
  refine ⟨by decide, by decide, ?_⟩
  have h := upsert_raw_paired_when_no_drop [] [Json.obj [("id", Json.str "1")]] 3 0
    (by decide) (by decide) (by decide)
  exact h

/-- Claim C4, counterexample: a body that is valid JSON but neither a bare
array nor an object with the array under chats or data yields a successful
empty result, not an error. -/
theorem conversations_shape_mismatch_ok :
    conversations (HttpOutcome.response 200 (BodyResult.parsed
        (Json.obj [("foo", Json.num 1)]))) = Except.ok ([], []) := rfl

/-- Claim C4 amended: conversations fails exactly on connection failure
(carrying the transport message), on a non-success status (carrying the
status), and on an unparseable body (carrying the decode message); any
body that parses as JSON succeeds, a shape mismatch yielding the empty
list rather than an error. -/
theorem conversations_error_cases (o : HttpOutcome) :
    (exceptIsOk (conversations o) = false ↔
      (∃ m, o = HttpOutcome.connectFail m) ∨
      (∃ st b, o = HttpOutcome.response st b ∧ isSuccess st = false) ∨
      (∃ st m, o = HttpOutcome.response st (BodyResult.parseFail m) ∧ isSuccess st = true)) ∧
    (∀ m, conversations (HttpOutcome.connectFail m) = Except.error m) ∧
    (∀ st b, isSuccess st = false →
      conversations (HttpOutcome.response st b) = Except.error ("HTTP " ++ toString st)) ∧
    (∀ st m, isSuccess st = true →
      conversations (HttpOutcome.response st (BodyResult.parseFail m)) = Except.error m) ∧
    (∀ st j, isSuccess st = true →
      conversations (HttpOutcome.response st (BodyResult.parsed j)) =
        Except.ok (projectConvs (unwrapItems j), unwrapItems j)) := by
  refine ⟨?_, fun m => rfl, ?_, ?_, ?_⟩
  · cases o with
    | connectFail m =>
      constructor
      · intro _
        exact Or.inl ⟨m, rfl⟩
      · intro _
        simp [conversations, exceptIsOk]
    | response st b =>
      cases hs : isSuccess st with
      | false =>
        constructor
        · intro _
          exact Or.inr (Or.inl ⟨st, b, rfl, hs⟩)
        · intro _
          simp [conversations, hs, exceptIsOk]
      | true =>
        cases b with
        | parseFail m =>
          constructor
          · intro _
            exact Or.inr (Or.inr ⟨st, m, rfl, hs⟩)
          · intro _
            simp [conversations, hs, exceptIsOk]
        | parsed j =>
          constructor
          · intro hfalse
            simp [conversations, hs, exceptIsOk] at hfalse
          · rintro (⟨m, hm⟩ | ⟨st2, b2, he, hs2⟩ | ⟨st2, m2, he, hs2⟩)
            · cases hm
            · cases he
              rw [hs] at hs2
              cases hs2
            · cases he
  · intro st b hs
    simp [conversations, hs]
  · intro st m hs
    simp [conversations, hs]
  · intro st j hs
    simp [conversations, hs]

/-- Witness for the amended claim C4 at a 500 response. -/
theorem conversations_error_cases_witness :
    isSuccess 500 = false ∧
    conversations (HttpOutcome.response 500 (BodyResult.parseFail "bad")) =
      Except.error ("HTTP " ++ toString 500) :=
  ⟨by decide,
    (conversations_error_cases (HttpOutcome.response 500 (BodyResult.parseFail "bad"))).2.2.1
      500 (BodyResult.parseFail "bad") (by decide)⟩

/-- Claim C9: the projected result of listConversations is identical for a
bare array, for the array under the chats key, and for the array under the
data key, both in the projected conversations and in the raw items; in
particular the chats-wrapped singleton named Alice yields exactly that one
conversation. -/
theorem conversations_shape_equiv (l : List Json) :
    conversations (HttpOutcome.response 200 (BodyResult.parsed (Json.arr l))) =
      conversations (HttpOutcome.response 200 (BodyResult.parsed
        (Json.obj [("chats", Json.arr l)]))) ∧
    conversations (HttpOutcome.response 200 (BodyResult.parsed (Json.arr l))) =
      conversations (HttpOutcome.response 200 (BodyResult.parsed
        (Json.obj [("data", Json.arr l)]))) ∧
    conversations (HttpOutcome.response 200 (BodyResult.parsed
        (Json.obj [("chats", Json.arr
          [Json.obj [("id", Json.str "1"), ("name", Json.str "Alice")]])]))) =
      Except.ok ([⟨"1", "Alice"⟩],
        [Json.obj [("id", Json.str "1"), ("name", Json.str "Alice")]]) :=
  ⟨rfl, rfl, rfl⟩

/-- Claim C5: after an upsert batch the cache holds distinct ids, with
exactly one record for each batch id bearing the last write for that id;
listCached never shows a duplicate id; and repeating the identical upsert
n+1 times leaves the state, hence the listCached result, identical to
performing it once. -/
theorem upsert_listCached_one_per_id (s : List CachedRecord) (chats : List Conversation)
    (raws : Option (List Json)) (now : Int) (lopt : Option Nat) (c : Conversation) (n : Nat)
    (hnd : (s.map (fun r => r.id)).Nodup) (hc : c ∈ chats) :
    ((upsert_chats s chats raws now).map (fun r => r.id)).Nodup ∧
    (upsert_chats s chats raws now).countP (fun r => r.id == c.id) = 1 ∧
    (∃ c2 j, lastWriteIdx chats c.id 0 = some (c2, j) ∧
      findRec (upsert_chats s chats raws now) c.id = some (writeRecord c2 now raws j)) ∧
    ((get_chats (upsert_chats s chats raws now) lopt).map (fun v => v.id)).Nodup ∧
    upsertN s chats raws now (n + 1) = upsertN s chats raws now 1 := by
  have hnd' := upsert_ids_nodup s chats raws now hnd
  have hmem : c.id ∈ (upsert_chats s chats raws now).map (fun r => r.id) := by
    simp only [upsert_chats, upsertGo_ids]
    exact mem_addNewIds_of_mem _ _ c.id (List.mem_map.mpr ⟨c, hc, rfl⟩)
  refine ⟨hnd', ?_, ?_, ?_, upsertN_eq_one s chats raws now hnd n⟩
  · have h1 : ((upsert_chats s chats raws now).map (fun r => r.id)).count c.id = 1 :=
      List.count_eq_one_of_mem hnd' hmem
    simpa [List.count, List.countP_map, Function.comp] using h1
  · obtain ⟨c2, j, hj⟩ := exists_lastWriteIdx_of_mem chats c hc 0
    exact ⟨c2, j, hj, by rw [upsert_chats_findRec, hj]⟩
  · have hperm := (List.perm_insertionSort chatOrder (upsert_chats s chats raws now)).map
      (fun r => r.id)
    have hnds : ((List.insertionSort chatOrder (upsert_chats s chats raws now)).map
        (fun r => r.id)).Nodup := hperm.nodup_iff.mpr hnd'
    have hsub := (get_chatsRecords_sublist_sort (upsert_chats s chats raws now) lopt).map
      (fun r => r.id)
    have hndr : ((get_chatsRecords (upsert_chats s chats raws now) lopt).map
        (fun r => r.id)).Nodup := List.Nodup.sublist hsub hnds
    simpa [get_chats, List.map_map, Function.comp] using hndr

/-- Witness for claim C5 at a batch writing the same id twice into an empty
cache. -/
theorem upsert_listCached_one_per_id_witness :
    (([] : List CachedRecord).map (fun r => r.id)).Nodup ∧
    (⟨"1", "A"⟩ : Conversation) ∈ [(⟨"1", "A"⟩ : Conversation), ⟨"1", "B"⟩] ∧
    (upsert_chats [] [⟨"1", "A"⟩, ⟨"1", "B"⟩] none 0).countP (fun r => r.id == "1") = 1 ∧
    upsertN [] [⟨"1", "A"⟩, ⟨"1", "B"⟩] none 0 3 = upsertN [] [⟨"1", "A"⟩, ⟨"1", "B"⟩] none 0 1 := by
  refine ⟨by decide, by decide, ?_⟩
  have h := upsert_listCached_one_per_id [] [⟨"1", "A"⟩, ⟨"1", "B"⟩] none 0 none
    ⟨"1", "A"⟩ 2 (by decide) (by decide)
  exact ⟨h.2.1, h.2.2.2.2⟩

/-- Claim C6: listCached returns at most limit records for every limit
below the i64 cast boundary, the returned rows are ordered by updated_at
descending then name ascending, and the default limit is 500. -/
theorem get_chats_limit_sorted (s : List CachedRecord) (lopt : Option Nat) (limit : Nat)
    (h : limit < 2 ^ 63) :
    (get_chats s (some limit)).length ≤ limit ∧
    List.Sorted chatOrder (get_chatsRecords s lopt) ∧
    get_chats s none = get_chats s (some 500) := by
  refine ⟨?_, get_chatsRecords_pairwise s lopt, rfl⟩
  have hm : limit % 2 ^ 64 = limit := Nat.mod_eq_of_lt (lt_trans h (by norm_num))
  have hlim : i64ofUsize limit = (limit : Int) := by
    simp only [i64ofUsize, hm]
    rw [if_pos h]
  simp only [get_chats, List.length_map, get_chatsRecords, Option.getD_some, hlim]
  rw [if_neg (Int.not_lt.mpr (Int.natCast_nonneg limit))]
  simp [List.length_take]

/-- Witness for claim C6 at a two-record cache and limit one. -/
theorem get_chats_limit_sorted_witness :
    (1 : Nat) < 2 ^ 63 ∧
    (get_chats [⟨"a", "A", 1, none⟩, ⟨"b", "B", 2, none⟩] (some 1)).length ≤ 1 ∧
    List.Sorted chatOrder
      (get_chatsRecords [⟨"a", "A", 1, none⟩, ⟨"b", "B", 2, none⟩] (some 1)) ∧
    get_chats [⟨"a", "A", 1, none⟩, ⟨"b", "B", 2, none⟩] none =
      get_chats [⟨"a", "A", 1, none⟩, ⟨"b", "B", 2, none⟩] (some 500) :=
  ⟨by norm_num,
    get_chats_limit_sorted [⟨"a", "A", 1, none⟩, ⟨"b", "B", 2, none⟩] (some 1) 1 (by norm_num)⟩

/-- Claim C10: every record written by one upsert batch carries the single
timestamp now sampled before the batch, and consequently the batch's
records appear in listCached ordered purely by name ascending relative to
each other. -/
theorem upsert_single_timestamp_order (s : List CachedRecord) (chats : List Conversation)
    (raws : Option (List Json)) (now : Int) (lopt : Option Nat) (c : Conversation)
    (hnd : (s.map (fun r => r.id)).Nodup) (hc : c ∈ chats) :
    (∃ r, findRec (upsert_chats s chats raws now) c.id = some r ∧ r.updated_at = now) ∧
    List.Pairwise (fun a b => a.name ≤ b.name)
      ((get_chatsRecords (upsert_chats s chats raws now) lopt).filter
        (fun r => chats.any (fun c2 => c2.id == r.id))) := by
  have hnd' := upsert_ids_nodup s chats raws now hnd
  constructor
  · obtain ⟨c2, j, hj⟩ := exists_lastWriteIdx_of_mem chats c hc 0
    refine ⟨writeRecord c2 now raws j, ?_, rfl⟩
    rw [upsert_chats_findRec, hj]
  · have hmemnow : ∀ x ∈ (get_chatsRecords (upsert_chats s chats raws now) lopt).filter
        (fun r => chats.any (fun c2 => c2.id == r.id)), x.updated_at = now := by
      intro x hx
      obtain ⟨hxr, hxp⟩ := List.mem_filter.mp hx
      have hxs : x ∈ upsert_chats s chats raws now :=
        mem_of_mem_get_chatsRecords _ lopt x hxr
      obtain ⟨c3, hc3, hc3x⟩ : ∃ c3 ∈ chats, c3.id = x.id := by
        simpa [List.any_eq_true] using hxp
      obtain ⟨c4, j4, hj4⟩ := exists_lastWriteIdx_of_mem chats c3 hc3 0
      have hfr : findRec (upsert_chats s chats raws now) c3.id =
          some (writeRecord c4 now raws j4) := by rw [upsert_chats_findRec, hj4]
      have hfx : findRec (upsert_chats s chats raws now) x.id = some x :=
        findRec_of_mem_nodup _ hnd' x hxs
      rw [hc3x] at hfr
      have hxw : x = writeRecord c4 now raws j4 := Option.some.inj (hfx.symm.trans hfr)
      rw [hxw]
      rfl
    have hpair : List.Pairwise chatOrder
        ((get_chatsRecords (upsert_chats s chats raws now) lopt).filter
          (fun r => chats.any (fun c2 => c2.id == r.id))) :=
      List.Pairwise.sublist (List.filter_sublist _)
        (get_chatsRecords_pairwise (upsert_chats s chats raws now) lopt)
    refine List.Pairwise.imp_of_mem ?_ hpair
    intro a b ha hb hab
    have hae := hmemnow a ha
    have hbe := hmemnow b hb
    rcases hab with hlt | hpr
    · rw [hae, hbe] at hlt
      exact absurd hlt (lt_irrefl now)
    · exact hpr.2

/-- Witness for claim C10 at a singleton batch over a distinct older
record. -/
theorem upsert_single_timestamp_order_witness :
    (([⟨"m", "M", 5, none⟩] : List CachedRecord).map (fun r => r.id)).Nodup ∧
    (⟨"x", "X"⟩ : Conversation) ∈ [(⟨"x", "X"⟩ : Conversation)] ∧
    (∃ r, findRec (upsert_chats [⟨"m", "M", 5, none⟩] [⟨"x", "X"⟩] none 10) "x" =
        some r ∧ r.updated_at = 10) ∧
    List.Pairwise (fun a b => a.name ≤ b.name)
      ((get_chatsRecords (upsert_chats [⟨"m", "M", 5, none⟩] [⟨"x", "X"⟩] none 10)
          (some 200)).filter
        (fun r => [(⟨"x", "X"⟩ : Conversation)].any (fun c2 => c2.id == r.id))) := by
  refine ⟨by decide, by decide, ?_⟩
  have h := upsert_single_timestamp_order [⟨"m", "M", 5, none⟩] [⟨"x", "X"⟩] none 10
    (some 200) ⟨"x", "X"⟩ (by decide) (by decide)
  exact h
